import Mathlib

/-!
Shallow embedding of `src/bridge_app_equalized.py` (a Tkinter bridge-hand
evaluation form) and verification of its specified properties.

Strings from the GUI entries are modelled as `List Char`; Python `None` as
`Option`.  Python builtins used by the code (`str.strip`, `str.split`,
`str.replace`, `str.upper`, `int(...)`, `str.isdigit`) are modelled
character-wise below (`py*` definitions).
-/

namespace Bridge

/-- Python whitespace characters, as recognized by `str.strip()` / `str.split()`
(space, tab, newline, carriage return, vertical tab, form feed). -/
def pyIsSpace (c : Char) : Bool :=
  c = ' ' || c = '\t' || c = '\n' || c = '\r' || c = Char.ofNat 11 || c = Char.ofNat 12

/-- Python `text.strip()`: remove leading and trailing whitespace. -/
def pyStrip (l : List Char) : List Char :=
  ((l.dropWhile pyIsSpace).reverse.dropWhile pyIsSpace).reverse

/-- The chained `.replace(',', ' ').replace('-', ' ').replace('.', ' ')`,
acting on one character (each replacement is single-character). -/
def sepToSpace (c : Char) : Char :=
  if c = ',' || c = '-' || c = '.' then ' ' else c

/-- Python `raw.replace('10', 'T')`: leftmost-first, non-overlapping substring
replacement (scan left to right; on seeing `'1'` followed by `'0'`, emit
`'T'` and consume both; otherwise emit the character and move on). -/
def replaceTenWithT : List Char → List Char
  | [] => []
  | [c] => [c]
  | c :: d :: rest =>
    if c = '1' ∧ d = '0' then 'T' :: replaceTenWithT rest
    else c :: replaceTenWithT (d :: rest)

/-- Helper for `pySplitWs`: `acc` holds the current (reversed) in-progress
token. -/
def pySplitWsAux : List Char → List Char → List (List Char)
  | [], acc => if acc = [] then [] else [acc.reverse]
  | c :: rest, acc =>
    if pyIsSpace c then
      if acc = [] then pySplitWsAux rest [] else acc.reverse :: pySplitWsAux rest []
    else pySplitWsAux rest (c :: acc)

/-- Python `raw.split()` (no separator argument): split on runs of whitespace,
producing no empty parts.  The comprehension `[p for p in raw.split() if p]`
in the source filters empty strings, which `split()` never yields. -/
def pySplitWs (l : List Char) : List (List Char) :=
  pySplitWsAux l []

/-- The source constant `RANKS_ORDER = ['A','K','Q','J','T','9','8','7','6','5','4','3','2','X']`. -/
def RANKS_ORDER : List Char :=
  ['A', 'K', 'Q', 'J', 'T', '9', '8', '7', '6', '5', '4', '3', '2', 'X']

/-- The source dict `RANK_VALUES = {'A': 4, 'K': 3, 'Q': 2, 'J': 1}`, accessed in the source
via `.get(ch, 0)`, hence total with default `0`. -/
def RANK_VALUES (c : Char) : Nat :=
  if c = 'A' then 4 else if c = 'K' then 3 else if c = 'Q' then 2
  else if c = 'J' then 1 else 0

/-- The expression `RANKS_ORDER.index(t)`, the sort key in `normalize_cards`. -/
def rankIndex (c : Char) : Nat := RANKS_ORDER.indexOf c

/-- Comparison induced by the sort key `RANKS_ORDER.index`. -/
def rankLe (a b : Char) : Prop := rankIndex a ≤ rankIndex b

instance : DecidableRel rankLe := fun a b => Nat.decLe (rankIndex a) (rankIndex b)

instance : IsTotal Char rankLe :=
  ⟨fun a b => Nat.le_total (rankIndex a) (rankIndex b)⟩

instance : IsTrans Char rankLe :=
  ⟨fun _ _ _ h h2 => Nat.le_trans h h2⟩

/-- The source line `tokens = list(parts[0]) if len(parts) == 1 else` the flattening comprehension over the parts. -/
def tokensOf (parts : List (List Char)) : List Char :=
  match parts with
  | [p] => p
  | ps => ps.flatten

/-- The function `normalize_cards` from the source, line for line:
strip, upper, separators to spaces, `'10' -> 'T'`, split and flatten,
`'0' -> 'T'`, keep only rank characters, sort by `RANKS_ORDER` index
(`sorted` is a stable sort; modelled by the stable `List.insertionSort`). -/
def normalize_cards (text : Option (List Char)) : List Char :=
  match text with
  | none => []
  | some t =>
    let raw := (pyStrip t).map (fun c => sepToSpace c.toUpper)
    let raw2 := replaceTenWithT raw
    let parts := pySplitWs raw2
    let tokens0 := tokensOf parts
    let tokens1 := tokens0.map (fun c => if c = '0' then 'T' else c)
    let tokens2 := tokens1.filter (fun c => decide (c ∈ RANKS_ORDER))
    tokens2.insertionSort rankLe

/-- The function `hcp_from_cards`: `sum(RANK_VALUES.get(ch, 0) for ch in cards)`. -/
def hcp_from_cards (cards : List Char) : Nat :=
  (cards.map RANK_VALUES).sum

/-- The pre-sort token list of `normalize_cards`: everything up to and
including the rank filter (what gets handed to `sorted`). -/
def validTokens (t : List Char) : List Char :=
  (((tokensOf (pySplitWs (replaceTenWithT
      ((pyStrip t).map (fun c => sepToSpace c.toUpper))))).map
    (fun c => if c = '0' then 'T' else c)).filter
    (fun c => decide (c ∈ RANKS_ORDER)))

/-- Canonical sorted form: for each rank in `RANKS_ORDER` order, as many
copies as the token list holds. -/
def canonOf (t : List Char) : List Char :=
  (RANKS_ORDER.map (fun r => List.replicate (t.count r) r)).flatten

/-- Value of an ASCII decimal digit string (most significant first). -/
def digitsToNat (l : List Char) : Nat :=
  l.foldl (fun n c => 10 * n + (c.toNat - '0'.toNat)) 0

/-- Python `int(str)` on ASCII input: surrounding whitespace is ignored, an
optional single sign precedes one or more ASCII digits; any other shape
raises `ValueError`, modelled as `none`. -/
def pyInt (s : List Char) : Option Int :=
  match pyStrip s with
  | [] => none
  | '+' :: ds =>
    if ds ≠ [] ∧ ds.all Char.isDigit then some (digitsToNat ds : Int) else none
  | '-' :: ds =>
    if ds ≠ [] ∧ ds.all Char.isDigit then some (-(digitsToNat ds : Int)) else none
  | ds => if ds.all Char.isDigit then some (digitsToNat ds : Int) else none

/-- Python `str.isdigit()` on ASCII input: non-empty and all digits. -/
def pyIsdigit (s : List Char) : Bool :=
  !s.isEmpty && s.all Char.isDigit

/-- The four suit column codes `['S', 'H', 'D', 'C']`. -/
inductive SuitCode
  | S
  | H
  | D
  | C
deriving DecidableEq

def suitCodes : List SuitCode := [.S, .H, .D, .C]

/-- The four seats `['N', 'E', 'S', 'W']` (players and table tiles). -/
inductive Seat
  | N
  | E
  | S
  | W
deriving DecidableEq

def seats : List Seat := [.N, .E, .S, .W]

/-- The state a `HandFrame` tracks: the text of each entry/label variable,
`last_cards`, and the `played_counts` defaultdicts (missing key = 0).
`player_label` is `Option` because `__init__` receives the label but never
assigns the `self.player_label` attribute (so it stays absent, `none`). -/
structure HandState where
  points_min : List Char
  points_max : List Char
  hcp_var : List Char
  cards_total_var : List Char
  suit_count : SuitCode → List Char
  suit_cards : SuitCode → List Char
  last_cards : SuitCode → List Char
  played_counts : SuitCode → Char → Nat
  player_label : Option (List Char)

/-! ### The handler `on_cards_change` (lines 87-112): normalization, counter sync, and
the played-rank diff. -/

/-- The slice of `HandFrame` state one `on_cards_change` invocation touches:
the suit's cards entry, its count entry, `last_cards[sc]` and
`played_counts[sc]`. -/
structure SuitSlice where
  cards_var : List Char
  cnt_var : List Char
  last : List Char
  played : Char → Nat

/-- The ranks with a strictly positive surplus in `new_norm` over
`old_norm`: `added = {r: new_counter[r] - old_counter.get(r, 0) for r in
new_counter if r != 'X'}` after dropping non-positive values.  `Counter`
keys are the distinct characters of `new_norm` (`List.dedup`; key order is
irrelevant below because the increment branch requires this dict to be a
singleton). -/
def addedRanks (old_norm new_norm : List Char) : List Char :=
  new_norm.dedup.filter
    (fun r => r != 'X' && decide (old_norm.count r < new_norm.count r))

/-- Lines 95-105 of the source: the auto-mark of a single new rank that
replaced one `'X'`.  When the old normalized string is non-empty, the
`'X'` count dropped by exactly one, and the surplus dict sums to one, the
unique surplus rank's played count is incremented; otherwise the played
counts are untouched. -/
def playedUpdate (old_norm new_norm : List Char) (played : Char → Nat) :
    Char → Nat :=
  if old_norm ≠ [] then
    if ((old_norm.count 'X' : Int) - (new_norm.count 'X' : Int) = 1 ∧
        ((addedRanks old_norm new_norm).map
          (fun r => new_norm.count r - old_norm.count r)).sum = 1) then
      match addedRanks old_norm new_norm with
      | [added_rank] => fun r => if r = added_rank then played r + 1 else played r
      | _ => played
    else played
  else played

/-- The handler `on_cards_change` for one suit: re-normalize the entry, sync the count
entry, run the played-rank diff, and remember the normalized string as
`last_cards[sc]`. -/
def on_cards_change (sl : SuitSlice) : SuitSlice :=
  let old := sl.last
  let new_norm := normalize_cards (some sl.cards_var)
  let cards_var :=
    if new_norm ≠ sl.cards_var.map Char.toUpper then new_norm else sl.cards_var
  let cnt_var := (Nat.repr new_norm.length).data
  let old_norm := normalize_cards (some old)
  let played := playedUpdate old_norm new_norm sl.played
  { cards_var := cards_var, cnt_var := cnt_var, last := new_norm, played := played }

/-- The handler `on_count_change` (lines 118-128): parse the count entry with a guarded
`int(...)`; on failure return with no effect (`none`); otherwise recolor the
cards entry background depending on whether the desired count matches the
current card-string length. -/
def on_count_change (cnt cards : List Char) : Option (List Char) :=
  match pyInt cnt with
  | none => none
  | some desired =>
    some (if (cards.length : Int) ≠ desired then "#fff4f4".data else "white".data)

/-! ### The action `validate_all` (lines 424-441) -/

/-- One line of the validation popup. -/
inductive ValMsg
  | countMismatch (pl : Seat) (sc : SuitCode) (cnt : Nat) (cardsLen : Nat)
      (cards : List Char)
  | badHandTotal (pl : Seat) (total : Nat)
deriving DecidableEq

/-- The message lines one suit row contributes:
`cnt = int(cnt_str) if cnt_str.isdigit() else None`, and a line exactly when
`cnt is not None and cnt != len(cards)` (both entries stripped). -/
def suitMsgs (pl : Seat) (h : HandState) (sc : SuitCode) : List ValMsg :=
  let cnt_str := pyStrip (h.suit_count sc)
  let cards := pyStrip (h.suit_cards sc)
  if pyIsdigit cnt_str then
    if digitsToNat cnt_str ≠ cards.length then
      [.countMismatch pl sc (digitsToNat cnt_str) cards.length cards]
    else []
  else []

/-- The running `total` for one player: sum of the stripped card-string lengths. -/
def handTotal (h : HandState) : Nat :=
  (suitCodes.map (fun sc => (pyStrip (h.suit_cards sc)).length)).sum

/-- The lines one player contributes: the suit mismatches, then
`if total and total != 13` a bad-total line (note the `total` truthiness
guard: an all-empty hand contributes nothing). -/
def playerMsgs (pl : Seat) (h : HandState) : List ValMsg :=
  (suitCodes.flatMap (suitMsgs pl h)) ++
    (if handTotal h ≠ 0 ∧ handTotal h ≠ 13 then [.badHandTotal pl (handTotal h)] else [])

/-- All message lines of `validate_all`, players in `['N','E','S','W']`
order. -/
def validateMsgs (frames : Seat → HandState) : List ValMsg :=
  seats.flatMap (fun pl => playerMsgs pl (frames pl))

/-- The action `validate_all`: `true` = `showwarning` with the joined messages,
`false` = `showinfo "All good!"`. -/
def validate_all (frames : Seat → HandState) : Bool :=
  validateMsgs frames ≠ []

/-- Specification-side mismatch condition for one suit row: the (stripped)
count entry is numeric and differs from the (stripped) card-string
length. -/
def countMismatchAt (h : HandState) (sc : SuitCode) : Prop :=
  pyIsdigit (pyStrip (h.suit_count sc)) = true ∧
    digitsToNat (pyStrip (h.suit_count sc)) ≠ (pyStrip (h.suit_cards sc)).length

instance (h : HandState) (sc : SuitCode) : Decidable (countMismatchAt h sc) :=
  inferInstanceAs (Decidable (pyIsdigit (pyStrip (h.suit_count sc)) = true ∧
    digitsToNat (pyStrip (h.suit_count sc)) ≠ (pyStrip (h.suit_cards sc)).length))

/-- The state of a freshly opened form: all entries empty except the
`HCP`/`Cards` labels which start at `"0"`; nothing played. -/
def emptyHand : HandState :=
  { points_min := []
    points_max := []
    hcp_var := "0".data
    cards_total_var := "0".data
    suit_count := fun _ => []
    suit_cards := fun _ => []
    last_cards := fun _ => []
    played_counts := fun _ _ => 0
    player_label := none }

/-! ### The actions `dump_state` / `get_state` (lines 231-245, 443-447) -/

/-- The dictionary `HandFrame.get_state` returns. -/
structure PlayerSnapshot where
  player : List Char
  points_range : List Char × List Char
  hcp : List Char
  cards_total : List Char
  suits_count : SuitCode → List Char
  suits_cards : SuitCode → List Char
  suits_played : SuitCode → Char → Nat

/-- The method `get_state`: it reads `self.player_label`, which `__init__` never assigns;
an absent attribute raises `AttributeError` (modelled as `Except.error`). -/
def get_state (h : HandState) : Except (List Char) PlayerSnapshot :=
  match h.player_label with
  | none => .error "AttributeError: player_label".data
  | some pl =>
    .ok { player := pl
          points_range := (h.points_min, h.points_max)
          hcp := h.hcp_var
          cards_total := h.cards_total_var
          suits_count := h.suit_count
          suits_cards := h.suit_cards
          suits_played := h.played_counts }

/-- The action `BridgeApp.dump_state`: builds the snapshot dict of all four frames and
prints it; it only reads the frames, so the resulting form state (first
component) is the input state. -/
def dump_state (frames : Seat → HandState) :
    (Seat → HandState) × Except (List Char) (List (Seat × PlayerSnapshot)) :=
  (frames, seats.mapM (fun pl => (get_state (frames pl)).map (fun s => (pl, s))))

/-! ### The table square (lines 339, 376-388) -/

def GREEN : List Char := "#6fff6f".data

def RED : List Char := "#ff6f6f".data

/-- The initial `self.table_colors = {'N': green, 'E': green, 'S': green, 'W': green}`. -/
def initTableColors : Seat → List Char := fun _ => GREEN

/-- The source line `pair = ('W', 'E') if letter in ('W', 'E') else ('N', 'S')`. -/
def pairOf (letter : Seat) : Seat × Seat :=
  if letter = .W ∨ letter = .E then (.W, .E) else (.N, .S)

/-- The handler `_toggle_table_letter`: the clicked letter's current color decides the
new color, applied to both letters of the pair. -/
def toggle_table_letter (letter : Seat) (tc : Seat → List Char) :
    Seat → List Char :=
  let new_color := if tc letter = GREEN then RED else GREEN
  fun L => if L = (pairOf letter).1 ∨ L = (pairOf letter).2 then new_color else tc L

/-- Table colors after a sequence of tile clicks, starting all green. -/
def applyClicks (clicks : List Seat) : Seat → List Char :=
  clicks.foldl (fun tc l => toggle_table_letter l tc) initTableColors

/-- The table-square invariant: N and S share a color, W and E share a
color, and every tile is green or red. -/
def tableInv (tc : Seat → List Char) : Prop :=
  tc .N = tc .S ∧ tc .W = tc .E ∧ ∀ d, tc d = GREEN ∨ tc d = RED

/-! ### The summary `update_global_stats` (lines 457-505) and its helpers -/

/-- The nested `_to_int` (lines 476-481): strip, blank -> 0, `int(...)`
with any exception -> 0. -/
def to_int (entry : List Char) : Int :=
  let v := pyStrip entry
  if v = [] then 0 else (pyInt v).getD 0

/-- The guarded parse `try: hcp = int(hf.hcp_var.get()) except: hcp = 0`. -/
def hcpParsed (h : HandState) : Int :=
  (pyInt h.hcp_var).getD 0

/-- The aggregates `update_global_stats` computes for the summary line. -/
structure GlobalStats where
  total_cards : Nat
  suit_totals : SuitCode → Nat
  min_pts : Int
  max_pts : Int

/-- The method `update_global_stats`: one pass over `['N','E','S','W']`, accumulating
card totals (unstripped card strings) and, for the points sums,
`max(hcp, pts_min)` and `max(hcp, pts_max)` per player. -/
def update_global_stats (frames : Seat → HandState) : GlobalStats :=
  seats.foldl
    (fun acc pl =>
      let hf := frames pl
      let hcp := hcpParsed hf
      let pts_min := to_int hf.points_min
      let pts_max := to_int hf.points_max
      let handCards := (suitCodes.map (fun sc => (hf.suit_cards sc).length)).sum
      { total_cards := acc.total_cards + handCards
        suit_totals := fun sc => acc.suit_totals sc + (hf.suit_cards sc).length
        min_pts := acc.min_pts + max hcp pts_min
        max_pts := acc.max_pts + max hcp pts_max })
    { total_cards := 0, suit_totals := fun _ => 0, min_pts := 0, max_pts := 0 }

/-! ## Helper lemmas -/

theorem tokensOf_eq_flatten (ps : List (List Char)) : tokensOf ps = ps.flatten := by
  match ps with
  | [] => rfl
  | [p] => simp [tokensOf]
  | p :: q :: rest => rfl

theorem flatten_pySplitWsAux (l : List Char) : ∀ acc : List Char,
    (pySplitWsAux l acc).flatten = acc.reverse ++ l.filter (fun c => !pyIsSpace c) := by
  induction l with
  | nil =>
    intro acc
    by_cases h : acc = [] <;> simp [pySplitWsAux, h]
  | cons c rest ih =>
    intro acc
    by_cases hc : pyIsSpace c
    · by_cases h : acc = [] <;>
        simp [pySplitWsAux, hc, h, ih, List.filter_cons]
    · simp [pySplitWsAux, hc, ih, List.filter_cons]

theorem tokensOf_pySplitWs (l : List Char) :
    tokensOf (pySplitWs l) = l.filter (fun c => !pyIsSpace c) := by
  rw [tokensOf_eq_flatten, pySplitWs]
  simpa using flatten_pySplitWsAux l []

/-- The key `RANKS_ORDER.index` separates the members of `RANKS_ORDER`. -/
theorem rankIndex_inj_on :
    ∀ a ∈ RANKS_ORDER, ∀ b ∈ RANKS_ORDER, rankIndex a = rankIndex b → a = b := by
  decide

/-- Two permuted lists of rank characters sorted by the rank key are equal
(the key is antisymmetric on the rank alphabet). -/
theorem eq_of_perm_of_sorted_ranks :
    ∀ (l₁ l₂ : List Char), l₁.Perm l₂ → l₁.Pairwise rankLe → l₂.Pairwise rankLe →
      (∀ c ∈ l₁, c ∈ RANKS_ORDER) → l₁ = l₂ := by
  intro l₁
  induction l₁ with
  | nil =>
    intro l₂ hp _ _ _
    exact (hp.nil_eq).symm ▸ rfl
  | cons a t₁ ih =>
    intro l₂ hp hs₁ hs₂ hmem
    match l₂, hp with
    | [], hp => exact absurd hp.eq_nil (by simp)
    | b :: t₂, hp =>
      have hab : a = b := by
        have ha2 : a ∈ b :: t₂ := hp.mem_iff.mp (List.mem_cons_self a t₁)
        have hb1 : b ∈ a :: t₁ := hp.symm.mem_iff.mp (List.mem_cons_self b t₂)
        rcases List.mem_cons.mp ha2 with h | h
        · exact h
        · rcases List.mem_cons.mp hb1 with h2 | h2
          · exact h2.symm
          · have hba : rankLe b a := (List.pairwise_cons.mp hs₂).1 a h
            have hab2 : rankLe a b := (List.pairwise_cons.mp hs₁).1 b h2
            exact rankIndex_inj_on a (hmem a (List.mem_cons_self a t₁)) b
              (hmem b hb1) (Nat.le_antisymm hab2 hba)
      subst hab
      have hpt : t₁.Perm t₂ := hp.cons_inv
      have := ih t₂ hpt (List.pairwise_cons.mp hs₁).2 (List.pairwise_cons.mp hs₂).2
        (fun c hc => hmem c (List.mem_cons_of_mem a hc))
      rw [this]

/-- Counting in the canonical by-rank expansion of a token list. -/
theorem count_canon_general (order : List Char) (h : order.Nodup) (t : List Char)
    (r : Char) :
    ((order.map (fun q => List.replicate (t.count q) q)).flatten).count r =
      if r ∈ order then t.count r else 0 := by
  induction order with
  | nil => simp
  | cons q qs ih =>
    rcases List.nodup_cons.mp h with ⟨hq, hqs⟩
    simp only [List.map_cons, List.flatten_cons, List.count_append,
      List.count_replicate]
    by_cases hrq : q = r
    · subst hrq
      simp [ih hqs, hq]
    · have hne : (q == r) = false := by simp [hrq]
      rw [hne, if_neg (by simp)]
      rw [ih hqs]
      by_cases hr : r ∈ qs
      · simp [hr, List.mem_cons, Ne.symm hrq]
      · simp [hr, List.mem_cons, Ne.symm hrq, hrq]

theorem RANKS_ORDER_nodup : RANKS_ORDER.Nodup := by decide

theorem count_canonOf (t : List Char) (r : Char) :
    (canonOf t).count r = if r ∈ RANKS_ORDER then t.count r else 0 :=
  count_canon_general RANKS_ORDER RANKS_ORDER_nodup t r

theorem canonOf_perm_filter (t : List Char) :
    (canonOf t).Perm (t.filter (fun c => decide (c ∈ RANKS_ORDER))) := by
  rw [List.perm_iff_count]
  intro a
  rw [count_canonOf]
  by_cases ha : a ∈ RANKS_ORDER
  · rw [if_pos ha, List.count_filter (by simpa using ha)]
  · rw [if_neg ha]
    symm
    rw [List.count_eq_zero]
    intro hmem
    exact ha (by simpa using (List.mem_filter.mp hmem).2)

theorem canonOf_sorted (t : List Char) : (canonOf t).Pairwise rankLe := by
  rw [canonOf, List.pairwise_flatten]
  refine ⟨?_, ?_⟩
  · intro l hl
    obtain ⟨r, _, rfl⟩ := List.mem_map.mp hl
    rw [List.pairwise_replicate]
    have : rankLe r r := Nat.le_refl _
    tauto
  · rw [List.pairwise_map]
    have base : RANKS_ORDER.Pairwise (fun a b => rankIndex a < rankIndex b) := by
      decide
    refine base.imp ?_
    intro a b hab x hx y hy
    rw [List.eq_of_mem_replicate hx, List.eq_of_mem_replicate hy]
    exact Nat.le_of_lt hab

theorem mem_validTokens_ranks (t : List Char) :
    ∀ c ∈ validTokens t, c ∈ RANKS_ORDER := by
  intro c hc
  rw [validTokens] at hc
  simpa using (List.mem_filter.mp hc).2

theorem normalize_some_eq_sort (t : List Char) :
    normalize_cards (some t) = (validTokens t).insertionSort rankLe := rfl

/-- The function `normalize_cards` computes exactly the canonical by-rank expansion of
its filtered token list. -/
theorem normalize_eq_canon (t : List Char) :
    normalize_cards (some t) = canonOf (validTokens t) := by
  rw [normalize_some_eq_sort]
  have hfself : (validTokens t).filter (fun c => decide (c ∈ RANKS_ORDER)) =
      validTokens t :=
    List.filter_eq_self.mpr (fun a ha => by simpa using mem_validTokens_ranks t a ha)
  have hperm : ((validTokens t).insertionSort rankLe).Perm (canonOf (validTokens t)) := by
    refine (List.perm_insertionSort rankLe (validTokens t)).trans ?_
    have h2 := (canonOf_perm_filter (validTokens t)).symm
    rw [hfself] at h2
    exact h2
  refine eq_of_perm_of_sorted_ranks _ _ hperm ?_ ?_ ?_
  · exact List.sorted_insertionSort rankLe (validTokens t)
  · exact canonOf_sorted (validTokens t)
  · intro c hc
    exact mem_validTokens_ranks t c
      ((List.perm_insertionSort rankLe (validTokens t)).mem_iff.mp hc)

theorem map_eq_self_of (f : Char → Char) :
    ∀ (l : List Char), (∀ c ∈ l, f c = c) → l.map f = l
  | [], _ => rfl
  | c :: t, h => by
    rw [List.map_cons, h c (List.mem_cons_self c t),
      map_eq_self_of f t (fun d hd => h d (List.mem_cons_of_mem c hd))]

theorem dropWhile_eq_self_of_all (p : Char → Bool) :
    ∀ (l : List Char), (∀ c ∈ l, p c = false) → l.dropWhile p = l
  | [], _ => rfl
  | c :: t, h => by
    rw [List.dropWhile_cons, h c (List.mem_cons_self c t)]
    simp

theorem pyStrip_eq_self (l : List Char) (h : ∀ c ∈ l, pyIsSpace c = false) :
    pyStrip l = l := by
  rw [pyStrip, dropWhile_eq_self_of_all _ l h, dropWhile_eq_self_of_all _ l.reverse
    (fun c hc => h c (List.mem_reverse.mp hc)), List.reverse_reverse]

theorem replaceTenWithT_eq_self : ∀ (l : List Char), '1' ∉ l → replaceTenWithT l = l
  | [], _ => rfl
  | [_], _ => rfl
  | c :: d :: rest, h => by
    simp only [List.mem_cons, not_or] at h
    simp only [replaceTenWithT]
    rw [if_neg (fun hcd => h.1 hcd.1.symm)]
    have htail : '1' ∉ d :: rest := by
      simp only [List.mem_cons, not_or]
      exact h.2
    rw [replaceTenWithT_eq_self (d :: rest) htail]

/-- Every character of a `normalize_cards` output is a rank character. -/
theorem mem_normalize_ranks (t : Option (List Char)) :
    ∀ c ∈ normalize_cards t, c ∈ RANKS_ORDER := by
  match t with
  | none => intro c hc; cases hc
  | some s =>
    intro c hc
    rw [normalize_some_eq_sort] at hc
    exact mem_validTokens_ranks s c ((List.perm_insertionSort rankLe _).mem_iff.mp hc)

/-- Rank characters are fixed by every preprocessing stage of
`normalize_cards`. -/
theorem ranks_fixed_chars :
    ∀ c ∈ RANKS_ORDER, sepToSpace c.toUpper = c ∧ (if c = '0' then 'T' else c) = c ∧
      pyIsSpace c = false ∧ c ≠ '1' := by decide

/-- On an all-rank string every preprocessing stage of `normalize_cards` is
the identity, so `validTokens` is too. -/
theorem validTokens_eq_self (out : List Char) (hmem : ∀ c ∈ out, c ∈ RANKS_ORDER) :
    validTokens out = out := by
  have h1 : pyStrip out = out :=
    pyStrip_eq_self out (fun c hc => (ranks_fixed_chars c (hmem c hc)).2.2.1)
  have h2 : out.map (fun c => sepToSpace c.toUpper) = out :=
    map_eq_self_of _ out (fun c hc => (ranks_fixed_chars c (hmem c hc)).1)
  have h3 : replaceTenWithT out = out :=
    replaceTenWithT_eq_self out
      (fun hm => absurd (hmem _ hm) (by decide))
  have h4 : out.filter (fun c => !pyIsSpace c) = out :=
    List.filter_eq_self.mpr (fun a ha => by
      rw [(ranks_fixed_chars a (hmem a ha)).2.2.1]
      rfl)
  have h5 : out.map (fun c => if c = '0' then 'T' else c) = out :=
    map_eq_self_of _ out (fun c hc => (ranks_fixed_chars c (hmem c hc)).2.1)
  have h6 : out.filter (fun c => decide (c ∈ RANKS_ORDER)) = out :=
    List.filter_eq_self.mpr (fun a ha => by simpa using hmem a ha)
  rw [validTokens, h1, h2, h3, tokensOf_pySplitWs, h4, h5, h6]

/-- Helper for the ten-spelling count: only `'0'` and `'T'` are substituted
to `'T'`, and neither is whitespace. -/
theorem substZero_T_not_space (a : Char)
    (h : (if a = '0' then 'T' else a) = 'T') : pyIsSpace a = false := by
  by_cases h0 : a = '0'
  · subst h0; decide
  · rw [if_neg h0] at h; subst h; decide

/-! ## Claim theorems -/

/-- C1: for every input string, `normalize_cards` returns exactly the
characters of the input that belong to the rank alphabet `RANKS_ORDER`
(after whitespace/separator removal and digit substitution — the
`validTokens` stage), arranged in non-decreasing `RANKS_ORDER` position:
the output is a permutation of the filtered token list, is sorted by the
`RANKS_ORDER` index, and hence equals the canonical by-rank expansion of
that filtered token list. -/
theorem normalize_cards_filters_and_sorts (t : List Char) :
    (normalize_cards (some t)).Perm (validTokens t) ∧
    (normalize_cards (some t)).Pairwise (fun a b => rankIndex a ≤ rankIndex b) ∧
    normalize_cards (some t) = canonOf (validTokens t) := by
  refine ⟨?_, ?_, normalize_eq_canon t⟩
  · rw [normalize_some_eq_sort]
    exact List.perm_insertionSort rankLe (validTokens t)
  · rw [normalize_some_eq_sort]
    exact List.sorted_insertionSort rankLe (validTokens t)

/-- C4: `hcp_from_cards` sums the High Card Point values A=4, K=3, Q=2, J=1
over the characters of the card string, every other character contributing
0. -/
theorem hcp_from_cards_spec (cards : List Char) :
    hcp_from_cards cards =
      4 * cards.count 'A' + 3 * cards.count 'K' + 2 * cards.count 'Q' +
        cards.count 'J' := by
  induction cards with
  | nil => rfl
  | cons c rest ih =>
    have hstep : hcp_from_cards (c :: rest) = RANK_VALUES c + hcp_from_cards rest := by
      simp [hcp_from_cards]
    rw [hstep, ih]
    simp only [List.count_cons]
    by_cases hA : c = 'A'
    · subst hA; simp [RANK_VALUES]; omega
    · by_cases hK : c = 'K'
      · subst hK; simp [RANK_VALUES, hA]; omega
      · by_cases hQ : c = 'Q'
        · subst hQ; simp [RANK_VALUES, hA, hK]; omega
        · by_cases hJ : c = 'J'
          · subst hJ; simp [RANK_VALUES, hA, hK, hQ]; omega
          · simp [RANK_VALUES, hA, hK, hQ, hJ, Ne.symm hA, Ne.symm hK,
              Ne.symm hQ, Ne.symm hJ]

/-- C6: `normalize_cards` is idempotent — its output is a canonical form
fixed by re-normalization. -/
theorem normalize_cards_idempotent (s : List Char) :
    normalize_cards (some (normalize_cards (some s))) = normalize_cards (some s) := by
  have hmem : ∀ c ∈ normalize_cards (some s), c ∈ RANKS_ORDER :=
    mem_normalize_ranks (some s)
  have hsorted : (normalize_cards (some s)).Pairwise rankLe := by
    rw [normalize_some_eq_sort]
    exact List.sorted_insertionSort rankLe (validTokens s)
  rw [normalize_some_eq_sort (normalize_cards (some s)),
    validTokens_eq_self _ hmem]
  exact List.Sorted.insertionSort_eq hsorted

/-- C10: `normalize_cards` converts every `'10'` substring (after separator
replacement) and every remaining `'0'` character to the rank `'T'` before
filtering and sorting: the number of `'T'` in the output equals the number
of `'T'` after those two substitutions, and in particular the input `"10"`
yields output `"T"` rather than being stripped. -/
theorem normalize_cards_ten_spelling (s : List Char) :
    (normalize_cards (some s)).count 'T' =
      ((replaceTenWithT ((pyStrip s).map (fun c => sepToSpace c.toUpper))).map
        (fun c => if c = '0' then 'T' else c)).count 'T' ∧
    normalize_cards (some "10".data) = "T".data := by
  refine ⟨?_, by decide⟩
  rw [normalize_some_eq_sort]
  rw [(List.perm_insertionSort rankLe (validTokens s)).count_eq 'T']
  rw [validTokens, List.count_filter (by decide), tokensOf_pySplitWs]
  rw [List.count_eq_countP, List.count_eq_countP, List.countP_map, List.countP_map,
    List.countP_filter]
  apply List.countP_congr
  intro a _
  simp only [Function.comp_apply, Bool.and_eq_true, beq_iff_eq]
  constructor
  · intro hand
    exact hand.1
  · intro hsub
    refine ⟨hsub, ?_⟩
    rw [substZero_T_not_space a hsub]
    rfl

section ValidateAll

theorem suitMsgs_ne_nil_iff (pl : Seat) (h : HandState) (sc : SuitCode) :
    suitMsgs pl h sc ≠ [] ↔ countMismatchAt h sc := by
  by_cases hd : pyIsdigit (pyStrip (h.suit_count sc)) = true
  · by_cases hne : digitsToNat (pyStrip (h.suit_count sc)) =
        (pyStrip (h.suit_cards sc)).length
    · simp [suitMsgs, hd, hne, countMismatchAt]
    · simp [suitMsgs, hd, hne, countMismatchAt]
  · simp [suitMsgs, hd, countMismatchAt]

theorem suitMsgs_length (pl : Seat) (h : HandState) (sc : SuitCode) :
    (suitMsgs pl h sc).length = if countMismatchAt h sc then 1 else 0 := by
  by_cases hm : countMismatchAt h sc
  · rw [if_pos hm]
    rcases hm with ⟨hd, hne⟩
    simp [suitMsgs, hd, hne]
  · rw [if_neg hm]
    have := (suitMsgs_ne_nil_iff pl h sc).not.mpr hm
    simpa using this

theorem length_flatMap_general {α β : Type} (l : List α) (f : α → List β) :
    (l.flatMap f).length = (l.map (fun a => (f a).length)).sum := by
  induction l with
  | nil => rfl
  | cons a t ih => simp [List.flatMap_cons, ih]

theorem sum_ite_eq_countP {α : Type} (p : α → Prop) [DecidablePred p] (l : List α) :
    (l.map (fun x => if p x then 1 else 0)).sum = l.countP (fun x => decide (p x)) := by
  induction l with
  | nil => rfl
  | cons a t ih =>
    rw [List.map_cons, List.sum_cons, List.countP_cons, ih]
    by_cases hp : p a
    · simp [hp, Nat.add_comm]
    · simp [hp]

theorem playerMsgs_length (pl : Seat) (h : HandState) :
    (playerMsgs pl h).length =
      suitCodes.countP (fun sc => decide (countMismatchAt h sc)) +
        (if handTotal h ≠ 0 ∧ handTotal h ≠ 13 then 1 else 0) := by
  rw [playerMsgs, List.length_append, length_flatMap_general]
  congr 1
  · rw [← sum_ite_eq_countP]
    congr 1
    exact List.map_congr_left (fun sc _ => suitMsgs_length pl h sc)
  · by_cases hb : handTotal h ≠ 0 ∧ handTotal h ≠ 13 <;> simp [hb]

theorem playerMsgs_ne_nil_iff (pl : Seat) (h : HandState) :
    playerMsgs pl h ≠ [] ↔
      ((∃ sc ∈ suitCodes, countMismatchAt h sc) ∨
        (handTotal h ≠ 0 ∧ handTotal h ≠ 13)) := by
  rw [playerMsgs, ne_eq, List.append_eq_nil, not_and_or]
  constructor
  · intro hcase
    rcases hcase with hflat | hif
    · left
      rw [List.flatMap_eq_nil_iff] at hflat
      push_neg at hflat
      obtain ⟨sc, hsc, hne⟩ := hflat
      exact ⟨sc, hsc, (suitMsgs_ne_nil_iff pl h sc).mp hne⟩
    · right
      by_contra hb
      exact hif (by simp [hb])
  · intro hcase
    rcases hcase with ⟨sc, hsc, hm⟩ | hb
    · left
      rw [List.flatMap_eq_nil_iff]
      push_neg
      exact ⟨sc, hsc, (suitMsgs_ne_nil_iff pl h sc).mpr hm⟩
    · right
      simp [hb]

/-- C3 as written is falsified by the untouched form: every player's total
card count is `0 ≠ 13`, yet `validate_all` reports `"All good!"` — the code
guards the 13-card check behind a `total` truthiness test. -/
theorem validate_all_claim_counterexample :
    ¬ ((validate_all (fun _ => emptyHand) = true) ↔
      ((∃ pl ∈ seats, ∃ sc ∈ suitCodes, countMismatchAt
          ((fun _ => emptyHand) pl) sc) ∨
        (∃ pl ∈ seats, handTotal ((fun _ => emptyHand) pl) ≠ 13))) := by
  decide

/-- C3 (amended): `validate_all` warns iff some player's suit has a numeric
count entry differing from that suit's card-string length, or some player's
total card count is nonzero and not 13; each such mismatch and each such
hand contributes exactly one message line, and otherwise the `"All good!"`
info popup is shown. -/
theorem validate_all_spec (frames : Seat → HandState) :
    ((validate_all frames = true) ↔
      ((∃ pl ∈ seats, ∃ sc ∈ suitCodes, countMismatchAt (frames pl) sc) ∨
        (∃ pl ∈ seats, handTotal (frames pl) ≠ 0 ∧ handTotal (frames pl) ≠ 13))) ∧
    (validateMsgs frames).length =
      (seats.map (fun pl =>
        suitCodes.countP (fun sc => decide (countMismatchAt (frames pl) sc)))).sum +
      seats.countP (fun pl =>
        decide (handTotal (frames pl) ≠ 0 ∧ handTotal (frames pl) ≠ 13)) := by
  constructor
  · have hval : (validate_all frames = true) ↔ validateMsgs frames ≠ [] := by
      rw [validate_all]
      exact decide_eq_true_iff
    rw [hval, validateMsgs, ne_eq, List.flatMap_eq_nil_iff]
    push_neg
    constructor
    · intro hex
      obtain ⟨pl, hpl, hne⟩ := hex
      rcases (playerMsgs_ne_nil_iff pl (frames pl)).mp hne with hsuit | hbad
      · obtain ⟨sc, hsc, hm⟩ := hsuit
        exact Or.inl ⟨pl, hpl, sc, hsc, hm⟩
      · exact Or.inr ⟨pl, hpl, hbad⟩
    · intro hcase
      rcases hcase with ⟨pl, hpl, sc, hsc, hm⟩ | ⟨pl, hpl, hbad⟩
      · exact ⟨pl, hpl, (playerMsgs_ne_nil_iff pl (frames pl)).mpr
          (Or.inl ⟨sc, hsc, hm⟩)⟩
      · exact ⟨pl, hpl, (playerMsgs_ne_nil_iff pl (frames pl)).mpr (Or.inr hbad)⟩
  · rw [validateMsgs, length_flatMap_general, ← sum_ite_eq_countP]
    rw [← List.sum_map_add]
    congr 1
    exact List.map_congr_left (fun pl _ => playerMsgs_length pl (frames pl))

end ValidateAll

/-- C5: input handling is total and never rejects — `normalize_cards` is
defined on every input including `None`, strips every non-rank character
rather than erroring, and the numeric parses of the count and points
entries fall back to a no-op (`on_count_change`) or `0` (`to_int`) on
non-numeric input. -/
theorem input_handling_total :
    (normalize_cards none = []) ∧
    (∀ s : List Char, ∀ c ∈ normalize_cards (some s), c ∈ RANKS_ORDER) ∧
    (∀ cnt cards : List Char, (on_count_change cnt cards = none ↔ pyInt cnt = none)) ∧
    (∀ entry : List Char, pyInt (pyStrip entry) = none → to_int entry = 0) := by
  refine ⟨rfl, fun s => mem_normalize_ranks (some s), ?_, ?_⟩
  · intro cnt cards
    rw [on_count_change]
    cases pyInt cnt <;> simp
  · intro entry hfail
    rw [to_int]
    by_cases hv : pyStrip entry = []
    · rw [if_pos hv]
    · rw [if_neg hv, hfail]
      rfl

/-- Witness for C5 at concrete inputs. -/
theorem input_handling_total_witness :
    'A' ∈ RANKS_ORDER ∧
    (on_count_change "x".data "AK".data = none ↔ pyInt "x".data = none) ∧
    to_int "abc".data = 0 :=
  ⟨input_handling_total.2.1 "a".data 'A' (by decide),
    input_handling_total.2.2.1 "x".data "AK".data,
    input_handling_total.2.2.2 "abc".data (by decide)⟩

/-- C7: `dump_state` is a pure snapshot — it only reads the frames, so after
it runs every piece of tracked state (points range, HCP and cards totals,
per-suit count strings, card strings, played counts) is exactly what it was
before. -/
theorem dump_state_preserves_state (frames : Seat → HandState) (pl : Seat) :
    ((dump_state frames).1 pl).points_min = (frames pl).points_min ∧
    ((dump_state frames).1 pl).points_max = (frames pl).points_max ∧
    ((dump_state frames).1 pl).hcp_var = (frames pl).hcp_var ∧
    ((dump_state frames).1 pl).cards_total_var = (frames pl).cards_total_var ∧
    (∀ sc, ((dump_state frames).1 pl).suit_count sc = (frames pl).suit_count sc) ∧
    (∀ sc, ((dump_state frames).1 pl).suit_cards sc = (frames pl).suit_cards sc) ∧
    (∀ sc r, ((dump_state frames).1 pl).played_counts sc r =
      (frames pl).played_counts sc r) :=
  ⟨rfl, rfl, rfl, rfl, fun _ => rfl, fun _ => rfl, fun _ _ => rfl⟩

section TableSquare

theorem toggle_preserves_inv (L : Seat) (tc : Seat → List Char)
    (h : tableInv tc) : tableInv (toggle_table_letter L tc) := by
  obtain ⟨hNS, hWE, hcol⟩ := h
  have hnew : ∀ x : List Char, (if x = GREEN then RED else GREEN) = GREEN ∨
      (if x = GREEN then RED else GREEN) = RED := by
    intro x
    by_cases hg : x = GREEN
    · right; rw [if_pos hg]
    · left; rw [if_neg hg]
  cases L
  case N =>
    refine ⟨rfl, hWE, fun d => ?_⟩
    cases d
    · exact hnew (tc Seat.N)
    · exact hcol Seat.E
    · exact hnew (tc Seat.N)
    · exact hcol Seat.W
  case E =>
    refine ⟨hNS, rfl, fun d => ?_⟩
    cases d
    · exact hcol Seat.N
    · exact hnew (tc Seat.E)
    · exact hcol Seat.S
    · exact hnew (tc Seat.E)
  case S =>
    refine ⟨rfl, hWE, fun d => ?_⟩
    cases d
    · exact hnew (tc Seat.S)
    · exact hcol Seat.E
    · exact hnew (tc Seat.S)
    · exact hcol Seat.W
  case W =>
    refine ⟨hNS, rfl, fun d => ?_⟩
    cases d
    · exact hcol Seat.N
    · exact hnew (tc Seat.W)
    · exact hcol Seat.S
    · exact hnew (tc Seat.W)

theorem applyClicks_inv_aux :
    ∀ (clicks : List Seat) (tc : Seat → List Char), tableInv tc →
      tableInv (clicks.foldl (fun t l => toggle_table_letter l t) tc)
  | [], _, h => h
  | L :: rest, tc, h =>
    applyClicks_inv_aux rest _ (toggle_preserves_inv L tc h)

/-- C8: starting from all four tiles green, after any sequence of tile
clicks the N and S tiles share one color, the W and E tiles share one
color, every tile is green (`#6fff6f`) or red (`#ff6f6f`), and a single
click on any tile sets its whole pair to the opposite of the clicked
tile's current color. -/
theorem table_tiles_pairs (clicks : List Seat) :
    tableInv (applyClicks clicks) ∧
    (∀ L : Seat,
      toggle_table_letter L (applyClicks clicks) (pairOf L).1 =
        (if applyClicks clicks L = GREEN then RED else GREEN) ∧
      toggle_table_letter L (applyClicks clicks) (pairOf L).2 =
        (if applyClicks clicks L = GREEN then RED else GREEN)) := by
  constructor
  · exact applyClicks_inv_aux clicks initTableColors
      ⟨rfl, rfl, fun _ => Or.inl rfl⟩
  · intro L
    cases L <;> exact ⟨rfl, rfl⟩

end TableSquare

/-- C9: the global summary's points totals take the higher of HCP and the
declared bound per player: `Min pts` is the sum over the four players of
`max(parsed HCP, parsed declared minimum)` and `Max pts` the sum of
`max(parsed HCP, parsed declared maximum)`, blank or unparsable entries
parsing to 0, so a declared range below the hand's HCP is overridden by the
HCP. -/
theorem update_global_stats_points (frames : Seat → HandState) :
    (update_global_stats frames).min_pts =
      (seats.map (fun pl =>
        max (hcpParsed (frames pl)) (to_int (frames pl).points_min))).sum ∧
    (update_global_stats frames).max_pts =
      (seats.map (fun pl =>
        max (hcpParsed (frames pl)) (to_int (frames pl).points_max))).sum := by
  constructor <;>
    simp [update_global_stats, seats] <;> omega

section PlayedDiff

theorem sum_ones_singleton :
    ∀ (l : List Nat), (∀ x ∈ l, 1 ≤ x) → l.sum = 1 → l = [1]
  | [], _, hs => by simp at hs
  | x :: t, h, hs => by
    rw [List.sum_cons] at hs
    have hx : 1 ≤ x := h x (List.mem_cons_self x t)
    have ht0 : t.sum = 0 := by omega
    have hx1 : x = 1 := by omega
    subst hx1
    cases t with
    | nil => rfl
    | cons y u =>
      have hy : 1 ≤ y := h y (List.mem_cons_of_mem _ (List.mem_cons_self y u))
      rw [List.sum_cons] at ht0
      omega

theorem nodup_all_eq_singleton {α : Type} {l : List α} {r : α} (hn : l.Nodup)
    (hall : ∀ x ∈ l, x = r) (hr : r ∈ l) : l = [r] := by
  cases l with
  | nil => cases hr
  | cons x t =>
    have hx : x = r := hall x (List.mem_cons_self x t)
    subst hx
    cases t with
    | nil => rfl
    | cons y u =>
      have hy : y = x := hall y (List.mem_cons_of_mem x (List.mem_cons_self y u))
      rcases List.nodup_cons.mp hn with ⟨hnx, _⟩
      exact absurd (List.mem_cons.mpr (Or.inl hy.symm)) hnx

theorem mem_addedRanks (old_norm new_norm : List Char) (q : Char) :
    q ∈ addedRanks old_norm new_norm ↔
      (q ∈ new_norm ∧ q ≠ 'X' ∧ old_norm.count q < new_norm.count q) := by
  rw [addedRanks, List.mem_filter, List.mem_dedup]
  simp [and_assoc]

/-- When the surplus of one rank is exactly one and no other non-X rank has
a surplus, the surplus dict is the singleton on that rank. -/
theorem addedRanks_eq_singleton (old_norm new_norm : List Char) (r : Char)
    (hr : r ≠ 'X') (hc : new_norm.count r = old_norm.count r + 1)
    (hothers : ∀ q : Char, q ≠ 'X' → q ≠ r →
      new_norm.count q ≤ old_norm.count q) :
    addedRanks old_norm new_norm = [r] := by
  apply nodup_all_eq_singleton
  · exact (List.nodup_dedup new_norm).filter _
  · intro x hx
    rcases (mem_addedRanks old_norm new_norm x).mp hx with ⟨_, hxX, hlt⟩
    by_contra hxr
    exact absurd hlt (Nat.not_lt.mpr (hothers x hxX hxr))
  · exact (mem_addedRanks old_norm new_norm r).mpr
      ⟨List.count_pos_iff.mp (by omega), hr, by omega⟩

/-- Conversely, if the surplus dict sums to one, there is a unique non-X
rank with surplus exactly one, every other non-X rank has none, and the
dict is the singleton on that rank. -/
theorem addedSum_eq_one_exists (old_norm new_norm : List Char)
    (hsum : ((addedRanks old_norm new_norm).map
      (fun r => new_norm.count r - old_norm.count r)).sum = 1) :
    ∃ r : Char, r ≠ 'X' ∧ new_norm.count r = old_norm.count r + 1 ∧
      (∀ q : Char, q ≠ 'X' → q ≠ r →
        new_norm.count q ≤ old_norm.count q) ∧
      addedRanks old_norm new_norm = [r] := by
  have hall : ∀ x ∈ (addedRanks old_norm new_norm).map
      (fun r => new_norm.count r - old_norm.count r), 1 ≤ x := by
    intro x hx
    rcases List.mem_map.mp hx with ⟨q, hq, rfl⟩
    rcases (mem_addedRanks old_norm new_norm q).mp hq with ⟨_, _, hlt⟩
    omega
  have hmap := sum_ones_singleton _ hall hsum
  rcases hl : addedRanks old_norm new_norm with _ | ⟨r, t⟩
  · rw [hl] at hmap
    simp at hmap
  · rw [hl] at hmap
    rcases t with _ | ⟨s, u⟩
    · simp only [List.map_cons, List.map_nil, List.cons.injEq, and_true] at hmap
      have hmem : r ∈ addedRanks old_norm new_norm := by
        rw [hl]
        exact List.mem_cons_self r []
      rcases (mem_addedRanks old_norm new_norm r).mp hmem with ⟨_, hrX, hlt⟩
      refine ⟨r, hrX, by omega, ?_, rfl⟩
      intro q hqX hqr
      by_contra hgt
      push_neg at hgt
      have hqmem : q ∈ addedRanks old_norm new_norm :=
        (mem_addedRanks old_norm new_norm q).mpr
          ⟨List.count_pos_iff.mp (by omega), hqX, hgt⟩
      rw [hl] at hqmem
      rcases List.mem_cons.mp hqmem with hqr2 | hq0
      · exact hqr hqr2
      · cases hq0
    · simp at hmap

end PlayedDiff

/-- C2: for every suit slice whose old (`last_cards`) normalized string is
non-empty, `on_cards_change` infers a played rank by diffing the two
normalized strings: exactly when the new normalized string has exactly one
fewer `'X'` than the old one, and exactly one extra occurrence of exactly
one non-X rank, that rank's played count is incremented by one (all others
unchanged); in every other case no played count changes. -/
theorem on_cards_change_played_diff (sl : SuitSlice)
    (h : normalize_cards (some sl.last) ≠ []) :
    (∀ r : Char, r ≠ 'X' →
      (normalize_cards (some sl.last)).count 'X' =
        (normalize_cards (some sl.cards_var)).count 'X' + 1 →
      (normalize_cards (some sl.cards_var)).count r =
        (normalize_cards (some sl.last)).count r + 1 →
      (∀ q : Char, q ≠ 'X' → q ≠ r →
        (normalize_cards (some sl.cards_var)).count q ≤
          (normalize_cards (some sl.last)).count q) →
      ((on_cards_change sl).played r = sl.played r + 1 ∧
        ∀ q : Char, q ≠ r → (on_cards_change sl).played q = sl.played q)) ∧
    ((¬ ((normalize_cards (some sl.last)).count 'X' =
          (normalize_cards (some sl.cards_var)).count 'X' + 1 ∧
        ∃ r : Char, r ≠ 'X' ∧
          (normalize_cards (some sl.cards_var)).count r =
            (normalize_cards (some sl.last)).count r + 1 ∧
          ∀ q : Char, q ≠ 'X' → q ≠ r →
            (normalize_cards (some sl.cards_var)).count q ≤
              (normalize_cards (some sl.last)).count q)) →
      (on_cards_change sl).played = sl.played) := by
  set oldN := normalize_cards (some sl.last) with holdN
  set newN := normalize_cards (some sl.cards_var) with hnewN
  have hplayed : (on_cards_change sl).played = playedUpdate oldN newN sl.played := rfl
  constructor
  · intro r hrX hX hcount hothers
    have hAdded : addedRanks oldN newN = [r] :=
      addedRanks_eq_singleton oldN newN r hrX hcount hothers
    have hsum : ((addedRanks oldN newN).map
        (fun q => newN.count q - oldN.count q)).sum = 1 := by
      rw [hAdded]
      simp
      omega
    have hdelta : ((oldN.count 'X' : Int) - (newN.count 'X' : Int)) = 1 := by
      omega
    rw [hplayed, playedUpdate, if_pos h, if_pos ⟨hdelta, hsum⟩, hAdded]
    constructor
    · simp
    · intro q hqr
      simp [hqr]
  · intro hnot
    rw [hplayed, playedUpdate, if_pos h, if_neg ?hcond]
    case hcond =>
      rintro ⟨hd, hs⟩
      rcases addedSum_eq_one_exists oldN newN hs with ⟨r, hrX, hc, hoth, _⟩
      exact hnot ⟨by omega, r, hrX, hc, hoth⟩

/-- Witness for C2: replacing the `'X'` of `"AX"` by typing `"AK"` marks
exactly one `'K'` as played and leaves `'A'` untouched. -/
theorem on_cards_change_played_diff_witness :
    (on_cards_change ⟨"AK".data, [], "AX".data, fun _ => 0⟩).played 'K' = 1 ∧
    (on_cards_change ⟨"AK".data, [], "AX".data, fun _ => 0⟩).played 'A' = 0 := by
  have hmain := on_cards_change_played_diff ⟨"AK".data, [], "AX".data, fun _ => 0⟩
    (by decide)
  have hothers : ∀ q : Char, q ≠ 'X' → q ≠ 'K' →
      (normalize_cards (some "AK".data)).count q ≤
        (normalize_cards (some "AX".data)).count q := by
    intro q hqX hqK
    by_cases hqA : q = 'A'
    · subst hqA; decide
    · have hz : (normalize_cards (some "AK".data)).count q = 0 := by
        rw [List.count_eq_zero]
        intro hmem
        have : q ∈ RANKS_ORDER := mem_normalize_ranks _ q hmem
        have hA : q = 'A' ∨ q = 'K' := by
          have : q ∈ normalize_cards (some "AK".data) := hmem
          revert this
          show q ∈ normalize_cards (some "AK".data) → q = 'A' ∨ q = 'K'
          have he : normalize_cards (some "AK".data) = ['A', 'K'] := by decide
          rw [he]
          intro hq
          simpa using hq
        rcases hA with h1 | h1
        · exact hqA h1
        · exact hqK h1
      omega
  have hres := hmain.1 'K' (by decide) (by decide) (by decide) hothers
  exact ⟨hres.1, hres.2 'A' (by decide)⟩

/-! ## Sanity checks of the embedding on concrete inputs -/

example : normalize_cards (some "k, a 10 2".data) = "AKT2".data := by decide
example : normalize_cards (some "  9 8 x x ".data) = "98XX".data := by decide
example : normalize_cards none = [] := by decide
example : normalize_cards (some "100".data) = "TT".data := by decide
example : normalize_cards (some "z5?5".data) = "55".data := by decide
example : hcp_from_cards "AKQJ2".data = 10 := by decide
example : canonOf "KA2A".data = "AAK2".data := by decide
example : validTokens "k, a 10 2".data = "KAT2".data := by decide

end Bridge
